import Mathlib

/-!
Verification of the chart-formatting logic of OceanEYE's TaxaFormer
(`src/db/supabase_db.py`, class `TaxaformerDB`).

The Python code fetches stored analysis jobs and reshapes them into
chart-ready structures.  The embedding below models:

  * a sequence record as its `taxonomy` field (an optional string; the
    other stored fields, `accession` and `confidence`, are never read by
    the formatting code),
  * a stored job as an optional `filename` plus the `sequences` list of
    its `analysis_result`,
  * the job store as a function from job id to optional job (a row of the
    `analysis_jobs` table),
  * Python exceptions raised by the formatters as `Except String`,
  * Python `float` results of the diversity calculation as `Option ℚ`,
    where `none` stands for IEEE NaN (the value scipy's `braycurtis`
    returns when the denominator is zero) and `some q` for an exact
    rational value of the computation.
-/

namespace Taxaformer

/-- A classified sequence as stored in `analysis_result["sequences"]`;
`seq.get("taxonomy", "Unknown")` reads an optional field. -/
structure SeqRec where
  taxonomy : Option String
deriving DecidableEq

/-- A row of the `analysis_jobs` table, restricted to the fields the
formatting code reads: `filename` and `analysis_result["sequences"]`. -/
structure Job where
  filename : Option String
  sequences : List SeqRec
deriving DecidableEq

/-- The job store: `self.client.table("analysis_jobs").select(...).eq("id", job_id)`
returns a row when the id is present and no rows otherwise. -/
def Store : Type := String → Option Job

/-- Python `seq.get("taxonomy", "Unknown")`. -/
def rawTax (s : SeqRec) : String := s.taxonomy.getD "Unknown"

/-- Split a character list at every occurrence of `c`, Python-style:
`"".split(";") = [""]`, separators at the ends produce empty segments. -/
def splitCharList (c : Char) : List Char → List (List Char)
  | [] => [[]]
  | x :: xs =>
    match splitCharList c xs with
    | [] => if x = c then [[], []] else [[x]]
    | y :: ys => if x = c then [] :: y :: ys else (x :: y) :: ys

/-- Python `str.strip()`: drop whitespace from both ends. -/
def trimChars (l : List Char) : List Char :=
  ((l.dropWhile Char.isWhitespace).reverse.dropWhile Char.isWhitespace).reverse

/-- Python `taxonomy.split(";")` as a `String` operation. -/
def splitSemi (s : String) : List String :=
  (splitCharList ';' s.data).map String.mk

/-- Python `p.strip()` as a `String` operation. -/
def strTrim (s : String) : String := String.mk (trimChars s.data)

/-- `[p.strip() for p in taxonomy.split(";")]`: the lineage parser. -/
def parseLineage (s : String) : List String :=
  (splitSemi s).map strTrim

/-- The parsed lineage of a sequence record (taxonomy defaulting to
"Unknown" when absent). -/
def lineageOf (s : SeqRec) : List String := parseLineage (rawTax s)

/-- `parts[idx] if idx < len(parts) else "Unknown"`: the rank lookup into a
parsed lineage used by composition and heatmap code. -/
def taxonAt (idx : Nat) (taxonomy : String) : String :=
  (parseLineage taxonomy).getD idx "Unknown"

/-- First-match lookup in an association list (Python dict read). -/
def lookupVal {α β : Type} [DecidableEq α] (k : α) : List (α × β) → Option β
  | [] => none
  | p :: rest => if p.1 = k then some p.2 else lookupVal k rest

/-- Counter read `counts.get(key, 0)`. -/
def lookupCnt {α : Type} [DecidableEq α] (k : α) (l : List (α × Nat)) : Nat :=
  (lookupVal k l).getD 0

/-- One `Counter` increment: bump the first entry with the given key, or
append a fresh entry with count 1 (dicts keep insertion order). -/
def addCount {α : Type} [DecidableEq α] (k : α) : List (α × Nat) → List (α × Nat)
  | [] => [(k, 1)]
  | p :: rest => if p.1 = k then (p.1, p.2 + 1) :: rest else p :: addCount k rest

/-- `collections.Counter(iterable)`: entries in first-occurrence order. -/
def tally {α : Type} [DecidableEq α] (l : List α) : List (α × Nat) :=
  l.foldl (fun acc x => addCount x acc) []

/-- Python `rank.lower()`, character by character. -/
def strLower (s : String) : String := String.mk (s.data.map Char.toLower)

/-- The `rank_index` dict of `get_taxonomic_composition`. -/
def compRankIndex : List (String × Nat) :=
  [("domain", 0), ("phylum", 1), ("class", 2), ("order", 3),
   ("family", 4), ("genus", 5), ("species", 6)]

/-- `rank_index.get(rank.lower(), 1)` in `get_taxonomic_composition`. -/
def compIdx (rank : String) : Nat :=
  (lookupVal (strLower rank) compRankIndex).getD 1

/-- The `rank_index` dict of `get_heatmap_data` (no "species" entry). -/
def heatRankIndex : List (String × Nat) :=
  [("domain", 0), ("phylum", 1), ("class", 2), ("order", 3),
   ("family", 4), ("genus", 5)]

/-- `rank_index.get(rank.lower(), 2)` in `get_heatmap_data`. -/
def heatIdx (rank : String) : Nat :=
  (lookupVal (strLower rank) heatRankIndex).getD 2

/-- The fixed 15-entry color list of `_generate_colors`. -/
def palette : List String :=
  ["#22D3EE", "#10B981", "#F59E0B", "#EC4899", "#A78BFA",
   "#3B82F6", "#EF4444", "#8B5CF6", "#14B8A6", "#F97316",
   "#06B6D4", "#84CC16", "#F43F5E", "#6366F1", "#64748B"]

/-- `_generate_colors(count)`: the source doubles the 15-color list until it
is long enough and truncates, which makes color `i` the palette entry at
`i mod 15`. -/
def generateColors (count : Nat) : List String :=
  (List.range count).map (fun i => palette.getD (i % 15) "")

/-- Python `round(x, 2)` on the exact rational value of `(count/total)*100`
(the source rounds a binary float; the claims under verification only use
the half-unit error bound, which holds for either tie-breaking rule). -/
def round2 (q : ℚ) : ℚ := (round (q * 100) : ℤ) / 100

/-- Descending-count comparison used to model `Counter.most_common()`,
which sorts entries by count, largest first. -/
def cntGe (a b : String × Nat) : Prop := b.2 ≤ a.2

instance : DecidableRel cntGe := fun a b => Nat.decLe b.2 a.2

instance : IsTotal (String × Nat) cntGe := ⟨fun a b => Nat.le_total b.2 a.2⟩

instance : IsTrans (String × Nat) cntGe := ⟨fun _ _ _ h1 h2 => le_trans h2 h1⟩

/-- `rank_counts.most_common()`: the counter entries sorted by descending
count (stably, as Python's `sorted` is stable). -/
def mostCommon (counts : List (String × Nat)) : List (String × Nat) :=
  List.insertionSort cntGe counts

/-- One element of the composition list:
`{"name": taxon, "value": count, "percentage": ..., "color": colors[i]}`. -/
structure CompEntry where
  name : String
  value : Nat
  percentage : ℚ
  color : String
deriving DecidableEq

/-- The counting phase of `get_taxonomic_composition`: one taxon per
sequence, read at the rank's positional index. -/
def rankCounts (seqs : List SeqRec) (rank : String) : List (String × Nat) :=
  tally (seqs.map (fun s => taxonAt (compIdx rank) (rawTax s)))

/-- The body of `get_taxonomic_composition` after the fetch: count taxa at
the rank index, then emit `{name, value, percentage, color}` entries in
`most_common()` order. -/
def compositionOf (seqs : List SeqRec) (rank : String) : List CompEntry :=
  let counts := rankCounts seqs rank
  let total : Nat := (counts.map (fun p => p.2)).sum
  let colors := generateColors counts.length
  (mostCommon counts).enum.map (fun p =>
    { name := p.2.1
      value := p.2.2
      percentage := round2 ((p.2.2 : ℚ) / (total : ℚ) * 100)
      color := colors.getD p.1 "" })

/-- `get_taxonomic_composition(job_id, rank)`: raises
`ValueError(f"No analysis found for job_id: {job_id}")` when the store has
no row for the id. -/
def getTaxonomicComposition (store : Store) (jobId : String) (rank : String) :
    Except String (List CompEntry) :=
  match store jobId with
  | none => Except.error ("No analysis found for job_id: " ++ jobId)
  | some job => Except.ok (compositionOf job.sequences rank)

/-- Lexicographic code-point comparison of character lists: Python compares
strings code point by code point, a strict prefix sorting first. -/
def charListLeB : List Char → List Char → Bool
  | [], _ => true
  | _ :: _, [] => false
  | a :: as, b :: bs =>
    if a = b then charListLeB as bs else decide (a.toNat < b.toNat)

/-- Python string comparison, as used by `sorted` on label sets. -/
def strLe (a b : String) : Prop := charListLeB a.data b.data = true

instance : DecidableRel strLe := fun a b =>
  instDecidableEqBool (charListLeB a.data b.data) true

theorem charListLeB_total (x y : List Char) :
    charListLeB x y = true ∨ charListLeB y x = true := by
  induction x generalizing y with
  | nil => exact Or.inl rfl
  | cons a as ih =>
    cases y with
    | nil => exact Or.inr rfl
    | cons b bs =>
      by_cases hab : a = b
      · subst hab
        simpa [charListLeB] using ih bs
      · have hba : b ≠ a := fun h => hab h.symm
        have hne : a.toNat ≠ b.toNat := fun h => by
          apply hab
          have := congrArg Char.ofNat h
          rwa [Char.ofNat_toNat, Char.ofNat_toNat] at this
        rcases Nat.lt_or_ge a.toNat b.toNat with h | h
        · exact Or.inl (by simp [charListLeB, hab, h])
        · have h2 : b.toNat < a.toNat := lt_of_le_of_ne h (fun h3 => hne h3.symm)
          exact Or.inr (by simp [charListLeB, hba, h2])

theorem charListLeB_trans (x y z : List Char) (h1 : charListLeB x y = true)
    (h2 : charListLeB y z = true) : charListLeB x z = true := by
  induction x generalizing y z with
  | nil => rfl
  | cons a as ih =>
    cases y with
    | nil => simp [charListLeB] at h1
    | cons b bs =>
      cases z with
      | nil => simp [charListLeB] at h2
      | cons c cs =>
        by_cases hab : a = b <;> by_cases hbc : b = c
        · subst hab; subst hbc
          simp only [charListLeB, if_pos rfl] at h1 h2 ⊢
          exact ih bs cs h1 h2
        · subst hab
          simpa [charListLeB, hbc] using h2
        · subst hbc
          simpa [charListLeB, hab] using h1
        · simp only [charListLeB, if_neg hab] at h1
          simp only [charListLeB, if_neg hbc] at h2
          have hac : a.toNat < c.toNat :=
            Nat.lt_trans (of_decide_eq_true h1) (of_decide_eq_true h2)
          have hacne : a ≠ c := fun h => by
            subst h
            exact Nat.lt_irrefl _ hac
          simp [charListLeB, hacne, hac]

theorem charListLeB_antisymm (x y : List Char) (h1 : charListLeB x y = true)
    (h2 : charListLeB y x = true) : x = y := by
  induction x generalizing y with
  | nil =>
    cases y with
    | nil => rfl
    | cons b bs => simp [charListLeB] at h2
  | cons a as ih =>
    cases y with
    | nil => simp [charListLeB] at h1
    | cons b bs =>
      by_cases hab : a = b
      · subst hab
        simp only [charListLeB, if_pos rfl] at h1 h2
        exact congrArg (a :: ·) (ih bs h1 h2)
      · have hba : b ≠ a := fun h => hab h.symm
        simp only [charListLeB, if_neg hab] at h1
        simp only [charListLeB, if_neg hba] at h2
        exact absurd (Nat.lt_trans (of_decide_eq_true h1) (of_decide_eq_true h2))
          (Nat.lt_irrefl _)

instance : IsTotal String strLe := ⟨fun a b => charListLeB_total a.data b.data⟩

instance : IsTrans String strLe :=
  ⟨fun a b c h1 h2 => charListLeB_trans a.data b.data c.data h1 h2⟩

instance : IsAntisymm String strLe :=
  ⟨fun a b h1 h2 => by
    have h := charListLeB_antisymm a.data b.data h1 h2
    cases a; cases b; exact congrArg String.mk h⟩

/-- Python `sorted(...)` on a list of strings. -/
def sortStrings (l : List String) : List String := List.insertionSort strLe l

/-- A node of the hierarchy tree built by `get_hierarchical_data`:
`{"name": part, "value": 0, "children": {}}`.  Children are kept as a list
in dict insertion order; the dict key always equals the child's name. -/
inductive HTree where
  | node (name : String) (value : Nat) (children : List HTree)

/-- Node name accessor. -/
def HTree.name : HTree → String
  | .node n _ _ => n

/-- Node count accessor. -/
def HTree.value : HTree → Nat
  | .node _ v _ => v

/-- Children accessor. -/
def HTree.children : HTree → List HTree
  | .node _ _ cs => cs

/-- Sum of the values of a flat list of nodes. -/
def topSum (cs : List HTree) : Nat := (cs.map HTree.value).sum

/-- Sum of the values of a node's direct children. -/
def childSum (t : HTree) : Nat := topSum t.children

/-- Apply `f` to the first node with the given name (Python updates the
dict entry `current[part]`; keys are unique by construction). -/
def updateFirst (p : String) (f : HTree → HTree) : List HTree → List HTree
  | [] => []
  | c :: cs => if c.name = p then f c :: cs else c :: updateFirst p f cs

/-- The inner loop of `get_hierarchical_data` for one lineage: walk the
parts, creating `{"name": part, "value": 0, "children": {}}` when absent
(value becomes 1 after the increment), incrementing `value` when present,
and descending into the children for the remaining parts. -/
def insertPath : List String → List HTree → List HTree
  | [], cs => cs
  | p :: rest, cs =>
    if cs.any (fun c => c.name = p) then
      updateFirst p
        (fun c => HTree.node c.name (c.value + 1) (insertPath rest c.children)) cs
    else
      cs ++ [HTree.node p 1 (insertPath rest [])]

/-- The full tree-building fold of `get_hierarchical_data`: every lineage
is inserted into the shared `tree["children"]`. -/
def buildForest (lins : List (List String)) : List HTree :=
  lins.foldl (fun cs lin => insertPath lin cs) []

/-- The hierarchy forest built from a job's sequences. -/
def hierarchyForestOf (seqs : List SeqRec) : List HTree :=
  buildForest (seqs.map lineageOf)

/-- A node of the serialized output of `dict_to_list`: leaves report
`children: None` rather than an empty list. -/
inductive HOut where
  | node (name : String) (value : Nat) (children : Option (List HOut))

/-- `dict_to_list(node)`: serialize a tree node, turning an empty child
dict into `None`. -/
def dictToList : HTree → HOut
  | .node n v cs =>
    HOut.node n v
      (if cs.isEmpty then none
       else some (cs.attach.map (fun c => dictToList c.1)))
decreasing_by
  have := List.sizeOf_lt_of_mem c.2
  simp only [HTree.node.sizeOf_spec] at *
  omega

/-- The value returned by `get_hierarchical_data`:
`{"name": "Life", "children": [...]}`. -/
structure Hierarchy where
  name : String
  children : List HOut

/-- `get_hierarchical_data(job_id)`: raises `ValueError` when the store has
no row for the id, else serializes the built forest under a "Life" root. -/
def getHierarchicalData (store : Store) (jobId : String) : Except String Hierarchy :=
  match store jobId with
  | none => Except.error ("No analysis found for job_id: " ++ jobId)
  | some job =>
      Except.ok { name := "Life", children := (hierarchyForestOf job.sequences).map dictToList }

/-- A node of the tree is reachable from a forest: it is a root of the
forest or sits below one of its nodes' children. -/
inductive InForest : HTree → List HTree → Prop
  | root {t : HTree} {cs : List HTree} : t ∈ cs → InForest t cs
  | deeper {t c : HTree} {cs : List HTree} : c ∈ cs → InForest t c.children → InForest t cs

/-- Position of the first occurrence of `x` (Python `node_indices[name]`,
built by enumerating the sorted node list). -/
def idxOf {α : Type} [DecidableEq α] (x : α) : List α → Nat
  | [] => 0
  | a :: rest => if a = x then 0 else idxOf x rest + 1

/-- The edges one lineage contributes to the Sankey flows: `"Start"` is
prepended and edges join consecutive entries of the first
`min(5, len(parts))` parts, i.e. `Start` plus at most four lineage levels.
(The `f"Unknown {ranks[i]}"` fallbacks in the source are dead code: the
loop index stays below `max_levels - 1 < len(parts)`.) -/
def sankeyEdgesOf (lin : List String) : List (String × String) :=
  let ps := ("Start" :: lin).take 5
  ps.zip ps.tail

/-- All edge occurrences of a job's sequences, in iteration order. -/
def sankeyEdges (seqs : List SeqRec) : List (String × String) :=
  (seqs.map (fun s => sankeyEdgesOf (lineageOf s))).flatten

/-- Both endpoints of every edge, in order. -/
def endpointLabels : List (String × String) → List String
  | [] => []
  | e :: rest => e.1 :: e.2 :: endpointLabels rest

/-- The `nodes_set` of `get_sankey_data`: `"Start"` plus every edge
endpoint. -/
def sankeyLabels (seqs : List SeqRec) : List String :=
  "Start" :: endpointLabels (sankeyEdges seqs)

/-- `nodes_list = sorted(list(nodes_set))`: distinct labels in Python
sorted order. -/
def sankeyNodeList (seqs : List SeqRec) : List String :=
  sortStrings (sankeyLabels seqs).dedup

/-- `nodes = [{"id": idx, "name": name} for idx, name in enumerate(...)]`. -/
def sankeyNodes (seqs : List SeqRec) : List (Nat × String) :=
  (sankeyNodeList seqs).enum

/-- One Sankey link `{"source": id, "target": id, "value": count}`. -/
structure SankeyLink where
  source : Nat
  target : Nat
  value : Nat
deriving DecidableEq

/-- The links of `get_sankey_data`: one per distinct (source, target) pair,
holding its accumulated flow count, endpoint names replaced by their
positions in the sorted node list. -/
def sankeyLinks (seqs : List SeqRec) : List SankeyLink :=
  (tally (sankeyEdges seqs)).map (fun pc =>
    { source := idxOf pc.1.1 (sankeyNodeList seqs)
      target := idxOf pc.1.2 (sankeyNodeList seqs)
      value := pc.2 })

/-- The value returned by `get_sankey_data`. -/
structure SankeyData where
  nodes : List (Nat × String)
  links : List SankeyLink
deriving DecidableEq

/-- `get_sankey_data(job_id)`: raises `ValueError` when the store has no
row for the id. -/
def getSankeyData (store : Store) (jobId : String) : Except String SankeyData :=
  match store jobId with
  | none => Except.error ("No analysis found for job_id: " ++ jobId)
  | some job => Except.ok ⟨sankeyNodes job.sequences, sankeyLinks job.sequences⟩

/-- The value returned by `get_heatmap_data`. -/
structure HeatmapData where
  samples : List String
  taxa : List String
  matrix : List (List Nat)
deriving DecidableEq

/-- The per-job collection loop of `get_heatmap_data`: job ids absent from
the store are skipped (`continue`), present jobs contribute their filename
and their taxon counter at the heatmap rank index. -/
def heatCollect (store : Store) (jobIds : List String) (rank : String) :
    List (String × List (String × Nat)) :=
  jobIds.filterMap (fun id =>
    (store id).map (fun job =>
      (job.filename.getD "Unknown",
       tally (job.sequences.map (fun s => taxonAt (heatIdx rank) (rawTax s))))))

/-- Last-binding lookup: `sample_taxa_counts[sample_name] = taxa_counts`
overwrites earlier entries with the same filename, and the matrix rows are
then built from the dict, so the last counter wins. -/
def lastLookup {β : Type} (k : String) : List (String × β) → Option β
  | [] => none
  | p :: rest =>
    match lastLookup k rest with
    | some v => some v
    | none => if p.1 = k then some p.2 else none

/-- `get_heatmap_data(job_ids, rank)`: samples in resolution order, taxa
the sorted union of observed taxa, matrix rows `counts.get(taxon, 0)`. -/
def getHeatmapData (store : Store) (jobIds : List String) (rank : String) : HeatmapData :=
  let collected := heatCollect store jobIds rank
  let samples := collected.map (fun p => p.1)
  let taxa := sortStrings ((collected.map (fun p => p.2.map Prod.fst)).flatten).dedup
  let matrix := samples.map (fun name =>
    taxa.map (fun t => lookupCnt t ((lastLookup name collected).getD [])))
  ⟨samples, taxa, matrix⟩

/-- The per-job collection loop of `calculate_beta_diversity`: absent job
ids are skipped (`continue`); each present job contributes its filename
and a counter of its *full* taxonomy strings (species-level granularity,
no parsing). -/
def divCollect (store : Store) (jobIds : List String) :
    List (String × List (String × Nat)) :=
  jobIds.filterMap (fun id =>
    (store id).map (fun job =>
      (job.filename.getD "Unknown", tally (job.sequences.map rawTax))))

/-- `all_taxa = sorted(list(all_taxa))`: the sorted union of the taxa of
all resolved samples. -/
def allTaxaOf (collected : List (String × List (String × Nat))) : List String :=
  sortStrings ((collected.map (fun p => p.2.map Prod.fst)).flatten).dedup

/-- The samples × taxa integer abundance matrix (`matrix_data`). -/
def abundanceRows (collected : List (String × List (String × Nat))) : List (List Nat) :=
  collected.map (fun p => (allTaxaOf collected).map (fun t => lookupCnt t p.2))

/-- `|a - b|` on natural numbers. -/
def absDiff (a b : Nat) : Nat := (a - b) + (b - a)

/-- `scipy.spatial.distance.braycurtis(u, v) = Σ|u_k − v_k| / Σ|u_k + v_k|`
on integer abundance vectors, computed exactly: `none` models the IEEE NaN
scipy returns when the denominator is zero (0/0 warning), `some q` the
exact rational value of the float computation. -/
def brayCurtis (u v : List Nat) : Option ℚ :=
  let num := (List.zipWith absDiff u v).sum
  let den := (List.zipWith (fun a b => a + b) u v).sum
  if den = 0 then none else some (Rat.divInt (Nat.cast num) (Nat.cast den))

/-- The abundance rows of the resolved samples of a diversity request. -/
def divRows (store : Store) (jobIds : List String) : List (List Nat) :=
  abundanceRows (divCollect store jobIds)

/-- Entry (i, j) of `dissimilarity_matrix`: the matrix starts as
`np.zeros`, the loop skips `i == j`, and fills every other cell with
Bray-Curtis of rows i and j. -/
def dissimEntry (store : Store) (jobIds : List String) (i j : Nat) : Option ℚ :=
  if i = j then some 0
  else brayCurtis ((divRows store jobIds).getD i []) ((divRows store jobIds).getD j [])

/-- Entry (i, j) of `(1 - dissimilarity_matrix)`: numpy broadcasts the
subtraction elementwise (1 − NaN is NaN, i.e. `none` stays `none`). -/
def similEntry (store : Store) (jobIds : List String) (i j : Nat) : Option ℚ :=
  (dissimEntry store jobIds i j).map (fun d => 1 - d)

/-- Number of resolved samples (`n_samples = len(sample_names)`). -/
def nSamples (store : Store) (jobIds : List String) : Nat :=
  (divCollect store jobIds).length

/-- The `samples`, `dissimilarity_matrix` and `similarity_matrix` fields of
the value returned by `calculate_beta_diversity`.  The `pcoa` and
`explained_variance` fields come from `sklearn.decomposition.PCA`, an
external floating-point library call that is not modelled. -/
structure DivResult where
  samples : List String
  dissimilarity : List (List (Option ℚ))
  similarity : List (List (Option ℚ))

/-- The modelled part of `calculate_beta_diversity(job_ids)`. -/
def calculateBetaDiversity (store : Store) (jobIds : List String) : DivResult :=
  let n := nSamples store jobIds
  { samples := (divCollect store jobIds).map (fun p => p.1)
    dissimilarity :=
      (List.range n).map (fun i => (List.range n).map (fun j => dissimEntry store jobIds i j))
    similarity :=
      (List.range n).map (fun i => (List.range n).map (fun j => similEntry store jobIds i j)) }

theorem splitCharList_ne_nil (c : Char) (l : List Char) : splitCharList c l ≠ [] := by
  cases l with
  | nil => simp [splitCharList]
  | cons x xs =>
    rcases hs : splitCharList c xs with _ | ⟨y, ys⟩ <;>
      simp [splitCharList, hs] <;> split <;> simp

theorem parseLineage_ne_nil (s : String) : parseLineage s ≠ [] := by
  simp only [parseLineage, splitSemi, ne_eq, List.map_eq_nil_iff]
  exact splitCharList_ne_nil ';' s.data

theorem lineageOf_ne_nil (s : SeqRec) : lineageOf s ≠ [] := parseLineage_ne_nil _

/-- Claim C5: lineage parsing splits the raw string on ";", trims each
segment and keeps the segment order, so "A; B ;C" parses to
["A","B","C"]; a record without a taxonomy field gets the literal raw
lineage "Unknown". -/
theorem parse_trims_and_defaults (s : String) (r : SeqRec) (h : r.taxonomy = none) :
    parseLineage "A; B ;C" = ["A", "B", "C"] ∧
    parseLineage s = (splitSemi s).map strTrim ∧
    rawTax r = "Unknown" :=
  ⟨by decide, rfl, by simp [rawTax, h]⟩

theorem parse_trims_and_defaults_witness :
    parseLineage "A; B ;C" = ["A", "B", "C"] ∧
    parseLineage "Eukaryota" = (splitSemi "Eukaryota").map strTrim ∧
    rawTax ⟨none⟩ = "Unknown" :=
  parse_trims_and_defaults "Eukaryota" ⟨none⟩ rfl

/-- Claim C10: a rank missing from a component's rank-to-index dict falls
back to the dict's default index silently: composition defaults to 1
(phylum) and the heatmap to 2 (class); "species" maps to 6 in the
composition dict but is absent from the heatmap dict, so the heatmap
treats the canonical rank "species" by its default index 2. -/
theorem rank_fallback_defaults (rank : String)
    (h1 : lookupVal (strLower rank) compRankIndex = none)
    (h2 : lookupVal (strLower rank) heatRankIndex = none) :
    compIdx rank = 1 ∧ heatIdx rank = 2 ∧
    compIdx "species" = 6 ∧ heatIdx "species" = 2 ∧
    lookupVal "species" compRankIndex = some 6 ∧
    lookupVal "species" heatRankIndex = none :=
  ⟨by simp [compIdx, h1], by simp [heatIdx, h2], by decide, by decide, by decide, by decide⟩

theorem rank_fallback_defaults_witness :
    compIdx "banana" = 1 ∧ heatIdx "banana" = 2 ∧
    compIdx "species" = 6 ∧ heatIdx "species" = 2 ∧
    lookupVal "species" compRankIndex = some 6 ∧
    lookupVal "species" heatRankIndex = none :=
  rank_fallback_defaults "banana" (by decide) (by decide)

/-- Claim C7: for a stored job with zero sequence records the composition
is the empty list: the counter is empty, so the percentage loop (the only
place dividing by the total) runs over no entries and its division by the
zero total is never evaluated. -/
theorem composition_empty_job (store : Store) (jobId rank : String) (job : Job)
    (hs : store jobId = some job) (hempty : job.sequences = []) :
    getTaxonomicComposition store jobId rank = Except.ok [] ∧
    rankCounts job.sequences rank = [] := by
  constructor
  · simp only [getTaxonomicComposition, hs]
    rw [hempty]
    rfl
  · rw [hempty]
    rfl

theorem composition_empty_job_witness :
    getTaxonomicComposition
      (fun id => if id = "j" then some ⟨some "f.fasta", []⟩ else none) "j" "phylum" =
      Except.ok [] ∧
    rankCounts (Job.mk (some "f.fasta") []).sequences "phylum" = [] :=
  composition_empty_job _ "j" "phylum" ⟨some "f.fasta", []⟩ (by decide) rfl

theorem topSum_cons (c : HTree) (cs : List HTree) :
    topSum (c :: cs) = c.value + topSum cs := by
  simp [topSum]

theorem topSum_updateFirst (p : String) (rest : List String) (cs : List HTree)
    (h : cs.any (fun c => c.name = p) = true) :
    topSum (updateFirst p
      (fun c => HTree.node c.name (c.value + 1) (insertPath rest c.children)) cs) =
    topSum cs + 1 := by
  induction cs with
  | nil => simp at h
  | cons c cs ih =>
    by_cases hc : c.name = p
    · simp only [updateFirst, if_pos hc, topSum_cons]
      simp [HTree.value]
      omega
    · simp only [List.any_cons, Bool.or_eq_true, decide_eq_true_eq] at h
      rcases h with h | h
      · exact absurd h hc
      · simp only [updateFirst, if_neg hc, topSum_cons, ih h]
        omega

theorem insertPath_topSum (ps : List String) (cs : List HTree) :
    topSum (insertPath ps cs) = topSum cs + (if ps = [] then 0 else 1) := by
  cases ps with
  | nil => simp [insertPath]
  | cons p rest =>
    simp only [insertPath]
    by_cases h : cs.any (fun c => c.name = p) = true
    · rw [if_pos h, topSum_updateFirst p rest cs h]
      simp
    · rw [if_neg h]
      simp [topSum, HTree.value]

theorem buildForest_go_topSum (lins : List (List String)) (cs : List HTree)
    (h : ∀ lin ∈ lins, lin ≠ []) :
    topSum (lins.foldl (fun acc lin => insertPath lin acc) cs) =
      topSum cs + lins.length := by
  induction lins generalizing cs with
  | nil => simp
  | cons lin lins ih =>
    simp only [List.foldl_cons, List.length_cons]
    rw [ih _ (fun l hl => h l (List.mem_cons_of_mem _ hl)), insertPath_topSum]
    have hne : lin ≠ [] := h lin (List.mem_cons_self _ _)
    simp [hne]
    omega

/-- Each lineage increments exactly one top-level node, so the top-level
values sum to the number of lineages (lineages are never empty: splitting
any string yields at least one part). -/
theorem hierarchyForest_topSum (seqs : List SeqRec) :
    topSum (hierarchyForestOf seqs) = seqs.length := by
  have := buildForest_go_topSum (seqs.map lineageOf) []
    (fun lin hl => by
      rcases List.mem_map.1 hl with ⟨s, _, rfl⟩
      exact lineageOf_ne_nil s)
  simpa [hierarchyForestOf, buildForest, topSum] using this

/-- Every node reachable in the forest has its children's values summing
to at most its own value. -/
def ForestInv (cs : List HTree) : Prop :=
  ∀ t, InForest t cs → childSum t ≤ t.value

theorem not_inForest_nil (t : HTree) : ¬ InForest t [] := by
  intro h
  cases h with
  | root hm => exact absurd hm (List.not_mem_nil t)
  | @deeper c _ hm _ => exact absurd hm (List.not_mem_nil c)

theorem mem_updateFirst (p : String) (f : HTree → HTree) (t : HTree) (cs : List HTree)
    (h : t ∈ updateFirst p f cs) :
    t ∈ cs ∨ ∃ c, c ∈ cs ∧ c.name = p ∧ t = f c := by
  induction cs with
  | nil => simp [updateFirst] at h
  | cons c cs ih =>
    by_cases hc : c.name = p
    · rw [updateFirst, if_pos hc] at h
      rcases List.mem_cons.1 h with rfl | h
      · exact Or.inr ⟨c, List.mem_cons_self _ _, hc, rfl⟩
      · exact Or.inl (List.mem_cons_of_mem _ h)
    · rw [updateFirst, if_neg hc] at h
      rcases List.mem_cons.1 h with rfl | h
      · exact Or.inl (List.mem_cons_self _ _)
      · rcases ih h with h | ⟨d, hd, hdp, rfl⟩
        · exact Or.inl (List.mem_cons_of_mem _ h)
        · exact Or.inr ⟨d, List.mem_cons_of_mem _ hd, hdp, rfl⟩

theorem forestInv_insertPath (ps : List String) (cs : List HTree) (h : ForestInv cs) :
    ForestInv (insertPath ps cs) := by
  induction ps generalizing cs with
  | nil => exact h
  | cons p rest ih =>
    intro t ht
    simp only [insertPath] at ht
    by_cases hany : cs.any (fun c => c.name = p) = true
    · rw [if_pos hany] at ht
      cases ht with
      | root hm =>
        rcases mem_updateFirst _ _ _ _ hm with hm | ⟨c, hc, _, rfl⟩
        · exact h t (InForest.root hm)
        · show topSum (insertPath rest c.children) ≤ c.value + 1
          have h1 : topSum c.children ≤ c.value := h c (InForest.root hc)
          have h2 := insertPath_topSum rest c.children
          split at h2 <;> omega
      | @deeper c' _ hm hdeep =>
        rcases mem_updateFirst _ _ _ _ hm with hm | ⟨c, hc, _, rfl⟩
        · exact h t (InForest.deeper hm hdeep)
        · have hdeep2 : InForest t (insertPath rest c.children) := hdeep
          have hinv : ForestInv c.children :=
            fun u hu => h u (InForest.deeper hc hu)
          exact ih c.children hinv t hdeep2
    · rw [if_neg hany] at ht
      cases ht with
      | root hm =>
        rcases List.mem_append.1 hm with hm | hm
        · exact h t (InForest.root hm)
        · rcases List.mem_singleton.1 hm with rfl
          show topSum (insertPath rest []) ≤ 1
          have h2 := insertPath_topSum rest []
          have h0 : topSum ([] : List HTree) = 0 := rfl
          split at h2 <;> omega
      | @deeper c' _ hm hdeep =>
        rcases List.mem_append.1 hm with hm | hm
        · exact h t (InForest.deeper hm hdeep)
        · rcases List.mem_singleton.1 hm with rfl
          have hdeep2 : InForest t (insertPath rest []) := hdeep
          exact ih [] (fun u hu => absurd hu (not_inForest_nil u)) t hdeep2

theorem forestInv_buildForest_go (lins : List (List String)) (cs : List HTree)
    (h : ForestInv cs) :
    ForestInv (lins.foldl (fun acc lin => insertPath lin acc) cs) := by
  induction lins generalizing cs with
  | nil => exact h
  | cons lin lins ih => exact ih _ (forestInv_insertPath lin cs h)

/-- Claim C2 (amended): the root total — the sum of the top-level
children's counts — equals the number of input lineages, and every
reachable node's count is at least (not in general equal to) the sum of
its direct children's counts: a lineage that terminates at a node
increments that node but none of its children. -/
theorem hierarchy_count_invariants (seqs : List SeqRec) (t : HTree)
    (ht : InForest t (hierarchyForestOf seqs)) :
    topSum (hierarchyForestOf seqs) = seqs.length ∧ childSum t ≤ t.value :=
  ⟨hierarchyForest_topSum seqs,
   forestInv_buildForest_go (seqs.map lineageOf) []
     (fun u hu => absurd hu (not_inForest_nil u)) t ht⟩

theorem hierarchy_count_invariants_witness :
    topSum (hierarchyForestOf [⟨some "Eukaryota; Alveolata"⟩]) = 1 ∧
    childSum (HTree.node "Eukaryota" 1 [HTree.node "Alveolata" 1 []]) ≤
      (HTree.node "Eukaryota" 1 [HTree.node "Alveolata" 1 []]).value :=
  hierarchy_count_invariants [⟨some "Eukaryota; Alveolata"⟩]
    (HTree.node "Eukaryota" 1 [HTree.node "Alveolata" 1 []])
    (InForest.root (by constructor))

/-- Claim C2 (counterexample): with lineages "Eukaryota; Alveolata" and
"Eukaryota" the top-level node "Eukaryota" has two lineages passing
through it (count 2) but a single child of count 1: a non-leaf node whose
count differs from the sum of its direct children's counts. -/
theorem hierarchy_children_sum_cex :
    ((hierarchyForestOf [⟨some "Eukaryota; Alveolata"⟩, ⟨some "Eukaryota"⟩]).headD
        (HTree.node "" 0 [])).children.isEmpty = false ∧
    ((hierarchyForestOf [⟨some "Eukaryota; Alveolata"⟩, ⟨some "Eukaryota"⟩]).headD
        (HTree.node "" 0 [])).value = 2 ∧
    childSum ((hierarchyForestOf [⟨some "Eukaryota; Alveolata"⟩, ⟨some "Eukaryota"⟩]).headD
        (HTree.node "" 0 [])) = 1 :=
  ⟨by decide, by decide, by decide⟩

theorem sortStrings_sorted (l : List String) : List.Sorted strLe (sortStrings l) :=
  List.sorted_insertionSort strLe l

theorem sortStrings_perm (l : List String) : List.Perm (sortStrings l) l :=
  List.perm_insertionSort strLe l

theorem enumFrom_getD (l : List String) (n k : Nat) (hk : k < l.length) :
    (List.enumFrom n l).getD k (0, "") = (n + k, l.getD k "") := by
  induction l generalizing n k with
  | nil => simp at hk
  | cons a l ih =>
    cases k with
    | zero => simp [List.enumFrom]
    | succ k =>
      have hk2 : k < l.length := by simpa using hk
      simp only [List.enumFrom, List.getD_cons_succ]
      rw [ih (n + 1) k hk2]
      congr 1
      omega

/-- Claim C1 (amended): Sankey node ids enumerate the distinct labels in
Python sorted order, so each node's id is the sorted-label rank of its
name, and rebuilding from the same label set gives the same ids; for the
label set {"Start","Bacteria","Eukaryota"} the sorted order is
["Bacteria","Eukaryota","Start"], so the ids are Bacteria 0, Eukaryota 1,
Start 2 (not 0, 1, 2 in the order Start, Bacteria, Eukaryota). -/
theorem sankey_node_ids (seqs1 seqs2 : List SeqRec) (k : Nat)
    (hk : k < (sankeyNodeList seqs1).length)
    (hperm : List.Perm (sankeyLabels seqs1).dedup (sankeyLabels seqs2).dedup) :
    List.Sorted strLe (sankeyNodeList seqs1) ∧
    (sankeyNodes seqs1).getD k (0, "") = (k, (sankeyNodeList seqs1).getD k "") ∧
    sankeyNodes seqs1 = sankeyNodes seqs2 ∧
    sankeyNodes [⟨some "Bacteria"⟩, ⟨some "Eukaryota"⟩] =
      [(0, "Bacteria"), (1, "Eukaryota"), (2, "Start")] := by
  refine ⟨sortStrings_sorted _, ?_, ?_, by decide⟩
  · have := enumFrom_getD (sankeyNodeList seqs1) 0 k hk
    simpa [sankeyNodes, List.enum] using this
  · have heq : sankeyNodeList seqs1 = sankeyNodeList seqs2 := by
      apply List.eq_of_perm_of_sorted _ (sortStrings_sorted _) (sortStrings_sorted _)
      exact ((sortStrings_perm _).trans hperm).trans (sortStrings_perm _).symm
    simp [sankeyNodes, heq]

theorem sankey_node_ids_witness :
    List.Sorted strLe (sankeyNodeList [⟨some "Bacteria"⟩, ⟨some "Eukaryota"⟩]) ∧
    (sankeyNodes [⟨some "Bacteria"⟩, ⟨some "Eukaryota"⟩]).getD 0 (0, "") =
      (0, (sankeyNodeList [⟨some "Bacteria"⟩, ⟨some "Eukaryota"⟩]).getD 0 "") ∧
    sankeyNodes [⟨some "Bacteria"⟩, ⟨some "Eukaryota"⟩] =
      sankeyNodes [⟨some "Eukaryota"⟩, ⟨some "Bacteria"⟩] ∧
    sankeyNodes [⟨some "Bacteria"⟩, ⟨some "Eukaryota"⟩] =
      [(0, "Bacteria"), (1, "Eukaryota"), (2, "Start")] :=
  sankey_node_ids [⟨some "Bacteria"⟩, ⟨some "Eukaryota"⟩] [⟨some "Eukaryota"⟩, ⟨some "Bacteria"⟩]
    0 (by decide) (by decide)

/-- Claim C1 (counterexample): the claim assigns id 0 to "Start"; the code
sorts the labels, and "Start" sorts after "Bacteria" and "Eukaryota", so
its id is 2. -/
theorem sankey_node_ids_cex :
    (2, "Start") ∈ sankeyNodes [⟨some "Bacteria"⟩, ⟨some "Eukaryota"⟩] ∧
    ¬ (0, "Start") ∈ sankeyNodes [⟨some "Bacteria"⟩, ⟨some "Eukaryota"⟩] :=
  ⟨by decide, by decide⟩

/-- Number of occurrences of an element in a list. -/
def countOcc {α : Type} [DecidableEq α] (x : α) : List α → Nat
  | [] => 0
  | a :: l => (if a = x then 1 else 0) + countOcc x l

theorem lookupCnt_addCount {α : Type} [DecidableEq α] (p x : α) (acc : List (α × Nat)) :
    lookupCnt p (addCount x acc) = lookupCnt p acc + (if x = p then 1 else 0) := by
  induction acc with
  | nil =>
    by_cases hxp : x = p <;> simp [addCount, lookupCnt, lookupVal, hxp]
  | cons q acc ih =>
    obtain ⟨qk, qv⟩ := q
    by_cases hqx : qk = x
    · subst hqx
      by_cases hqp : qk = p <;> simp [addCount, lookupCnt, lookupVal, hqp]
    · by_cases hqp : qk = p
      · subst hqp
        have hxp : ¬ x = qk := fun h => hqx h.symm
        simp [addCount, lookupCnt, lookupVal, hqx, hxp]
      · have ih2 := ih
        simp only [lookupCnt] at ih2
        simp [addCount, lookupCnt, lookupVal, hqx, hqp, ih2]

theorem lookupCnt_tally_go {α : Type} [DecidableEq α] (p : α) (l : List α)
    (acc : List (α × Nat)) :
    lookupCnt p (l.foldl (fun a x => addCount x a) acc) = lookupCnt p acc + countOcc p l := by
  induction l generalizing acc with
  | nil => simp [countOcc]
  | cons x l ih =>
    simp only [List.foldl_cons, countOcc, ih, lookupCnt_addCount]
    by_cases hxp : x = p
    · simp [hxp]
      try omega
    · simp [hxp]
      try omega

/-- The accumulated flow count of a (source, target) pair is the number of
occurrences of that edge over all lineages. -/
theorem lookupCnt_tally {α : Type} [DecidableEq α] (p : α) (l : List α) :
    lookupCnt p (tally l) = countOcc p l := by
  have := lookupCnt_tally_go p l []
  simpa [tally, lookupCnt, lookupVal] using this

theorem mem_endpointLabels (x : String) (es : List (String × String)) :
    x ∈ endpointLabels es ↔ ∃ e ∈ es, x = e.1 ∨ x = e.2 := by
  induction es with
  | nil => simp [endpointLabels]
  | cons e es ih =>
    simp only [endpointLabels, List.mem_cons, ih]
    constructor
    · rintro (rfl | rfl | ⟨f, hf, h⟩)
      · exact ⟨e, Or.inl rfl, Or.inl rfl⟩
      · exact ⟨e, Or.inl rfl, Or.inr rfl⟩
      · exact ⟨f, Or.inr hf, h⟩
    · rintro ⟨f, rfl | hf, h⟩
      · rcases h with rfl | rfl
        · exact Or.inl rfl
        · exact Or.inr (Or.inl rfl)
      · exact Or.inr (Or.inr ⟨f, hf, h⟩)

theorem sankeyEdgesOf_eq (lin : List String) :
    sankeyEdgesOf lin = ("Start" :: lin.take 4).zip (lin.take 4) := by
  simp [sankeyEdgesOf]

theorem sankeyEdgesOf_endpoints (lin : List String) (e : String × String)
    (he : e ∈ sankeyEdgesOf lin) :
    (e.1 = "Start" ∨ e.1 ∈ lin.take 4) ∧ e.2 ∈ lin.take 4 := by
  rw [sankeyEdgesOf_eq] at he
  obtain ⟨e1, e2⟩ := e
  have h := List.of_mem_zip he
  exact ⟨by simpa using h.1, h.2⟩

/-- Claim C8: each lineage contributes edges exactly between consecutive
entries of "Start" followed by its first four levels (at most four edges);
every node label is "Start" or lies among some lineage's first four
levels, so labels beyond the fourth level never appear; and each distinct
(source, target) pair's flow value counts its edge occurrences. -/
theorem sankey_edge_window (lin : List String) (seqs : List SeqRec) (x : String)
    (p e : String × String)
    (he : e ∈ sankeyEdgesOf lin) (hx : x ∈ sankeyNodeList seqs) :
    sankeyEdgesOf lin = ("Start" :: lin.take 4).zip (lin.take 4) ∧
    (sankeyEdgesOf lin).length ≤ 4 ∧
    ((e.1 = "Start" ∨ e.1 ∈ lin.take 4) ∧ e.2 ∈ lin.take 4) ∧
    (x = "Start" ∨ ∃ s ∈ seqs, x ∈ (lineageOf s).take 4) ∧
    lookupCnt p (tally (sankeyEdges seqs)) = countOcc p (sankeyEdges seqs) := by
  refine ⟨sankeyEdgesOf_eq lin, ?_, sankeyEdgesOf_endpoints lin e he, ?_, lookupCnt_tally p _⟩
  · rw [sankeyEdgesOf_eq]
    simp only [List.length_zip, List.length_cons, List.length_take]
    omega
  · have hx2 : x ∈ sankeyLabels seqs := by
      have := (sortStrings_perm (sankeyLabels seqs).dedup).mem_iff.1 hx
      exact (List.mem_dedup).1 this
    rcases List.mem_cons.1 hx2 with rfl | hx3
    · exact Or.inl rfl
    · rcases (mem_endpointLabels x _).1 hx3 with ⟨f, hf, hor⟩
      rcases List.mem_flatten.1 hf with ⟨es, hes, hfes⟩
      rcases List.mem_map.1 hes with ⟨s, hs, rfl⟩
      have hends := sankeyEdgesOf_endpoints _ f hfes
      rcases hor with rfl | rfl
      · rcases hends.1 with h1 | h1
        · exact Or.inl h1
        · exact Or.inr ⟨s, hs, h1⟩
      · exact Or.inr ⟨s, hs, hends.2⟩

theorem sankey_edge_window_witness :
    sankeyEdgesOf ["D", "P", "C", "O", "F", "G"] =
      ("Start" :: ["D", "P", "C", "O", "F", "G"].take 4).zip
        (["D", "P", "C", "O", "F", "G"].take 4) ∧
    (sankeyEdgesOf ["D", "P", "C", "O", "F", "G"]).length ≤ 4 ∧
    ((("Start", "D").1 = "Start" ∨ ("Start", "D").1 ∈ ["D", "P", "C", "O", "F", "G"].take 4) ∧
      ("Start", "D").2 ∈ ["D", "P", "C", "O", "F", "G"].take 4) ∧
    ("D" = "Start" ∨ ∃ s ∈ [SeqRec.mk (some "D;P;C;O;F;G")], "D" ∈ (lineageOf s).take 4) ∧
    lookupCnt ("Start", "D") (tally (sankeyEdges [SeqRec.mk (some "D;P;C;O;F;G")])) =
      countOcc ("Start", "D") (sankeyEdges [SeqRec.mk (some "D;P;C;O;F;G")]) :=
  sankey_edge_window ["D", "P", "C", "O", "F", "G"] [SeqRec.mk (some "D;P;C;O;F;G")]
    "D" ("Start", "D") ("Start", "D") (by decide) (by decide)

/-- Claim C3 (amended): on a job id absent from the store, composition,
hierarchy and Sankey raise ValueError immediately; the heatmap and the
diversity calculator instead skip absent ids silently (`continue`), so a
heatmap request whose ids are all absent returns the empty structure
rather than erroring, and a diversity request simply drops the absent
ids from its sample collection; composition over a present job with zero
records yields the empty list, and such a job contributes an empty taxa
counter (no taxa, an all-zero row) to the heatmap. -/
theorem missing_job_handling (store : Store) (jobId rank : String)
    (jobIds : List String) (job : Job)
    (habs : store jobId = none)
    (hall : ∀ id ∈ jobIds, store id = none)
    (hzero : job.sequences = []) :
    getTaxonomicComposition store jobId rank =
      Except.error ("No analysis found for job_id: " ++ jobId) ∧
    getHierarchicalData store jobId =
      Except.error ("No analysis found for job_id: " ++ jobId) ∧
    getSankeyData store jobId =
      Except.error ("No analysis found for job_id: " ++ jobId) ∧
    getHeatmapData store jobIds rank = ⟨[], [], []⟩ ∧
    divCollect store (jobId :: jobIds) = divCollect store jobIds ∧
    compositionOf job.sequences rank = [] ∧
    tally (job.sequences.map (fun s => taxonAt (heatIdx rank) (rawTax s))) = [] := by
  have hcoll : heatCollect store jobIds rank = [] := by
    simp only [heatCollect, List.filterMap_eq_nil_iff]
    intro id hid
    simp [hall id hid]
  refine ⟨?_, ?_, ?_, ?_, ?_, ?_, ?_⟩
  · simp [getTaxonomicComposition, habs]
  · simp [getHierarchicalData, habs]
  · simp [getSankeyData, habs]
  · simp [getHeatmapData, hcoll, sortStrings]
  · simp [divCollect, habs]
  · rw [hzero]; rfl
  · rw [hzero]; rfl

theorem missing_job_handling_witness :
    getTaxonomicComposition (fun _ => none) "gone" "class" =
      Except.error ("No analysis found for job_id: " ++ "gone") ∧
    getHierarchicalData (fun _ => none) "gone" =
      Except.error ("No analysis found for job_id: " ++ "gone") ∧
    getSankeyData (fun _ => none) "gone" =
      Except.error ("No analysis found for job_id: " ++ "gone") ∧
    getHeatmapData (fun _ => none) ["a", "b"] "class" = ⟨[], [], []⟩ ∧
    divCollect (fun _ => none) ("gone" :: ["a", "b"]) = divCollect (fun _ => none) ["a", "b"] ∧
    compositionOf (Job.mk (some "s.fasta") []).sequences "class" = [] ∧
    tally ((Job.mk (some "s.fasta") []).sequences.map
      (fun s => taxonAt (heatIdx "class") (rawTax s))) = [] :=
  missing_job_handling (fun _ => none) "gone" "class" ["a", "b"]
    (Job.mk (some "s.fasta") []) rfl (fun _ _ => rfl) rfl

/-- Claim C3 (counterexample): a heatmap request for a single absent job id
silently returns the empty structure — no error is raised, contradicting
the claim that every formatting component raises on a missing job id. -/
theorem missing_job_handling_cex :
    getHeatmapData (fun _ => none) ["missing-job"] "class" =
      ⟨[], [], []⟩ :=
  by decide

theorem sumCounts_addCount {α : Type} [DecidableEq α] (x : α) (acc : List (α × Nat)) :
    ((addCount x acc).map (fun p => p.2)).sum = (acc.map (fun p => p.2)).sum + 1 := by
  induction acc with
  | nil => simp [addCount]
  | cons q acc ih =>
    by_cases hq : q.1 = x
    · simp [addCount, hq]
      omega
    · simp [addCount, hq, ih]
      omega

theorem tally_sum_go {α : Type} [DecidableEq α] (l : List α) (acc : List (α × Nat)) :
    ((l.foldl (fun a x => addCount x a) acc).map (fun p => p.2)).sum =
      (acc.map (fun p => p.2)).sum + l.length := by
  induction l generalizing acc with
  | nil => simp
  | cons x l ih =>
    simp only [List.foldl_cons, List.length_cons, ih, sumCounts_addCount]
    omega

/-- The counter's values sum to the number of counted elements:
`total = sum(rank_counts.values())` equals the number of sequences. -/
theorem tally_sum {α : Type} [DecidableEq α] (l : List α) :
    ((tally l).map (fun p => p.2)).sum = l.length := by
  simpa [tally] using tally_sum_go l []

/-- Rounding to two decimals moves a rational by at most 1/200. -/
theorem round2_err (q : ℚ) : |round2 q - q| ≤ 1 / 200 := by
  have h : |q * 100 - round (q * 100)| ≤ 1 / 2 := abs_sub_round (q * 100)
  have h2 : round2 q - q = -((q * 100 - (round (q * 100) : ℚ)) / 100) := by
    rw [round2]
    ring
  rw [h2, abs_neg, abs_div]
  rw [abs_of_pos (by norm_num : (0:ℚ) < 100)]
  linarith

theorem sum_map_round2_err (l : List ℚ) :
    |(l.map round2).sum - l.sum| ≤ (l.length : ℚ) / 200 := by
  induction l with
  | nil => simp
  | cons a l ih =>
    have ha := round2_err a
    have h3 : (l.map round2).sum + round2 a - (a + l.sum) =
        (round2 a - a) + ((l.map round2).sum - l.sum) := by ring
    calc |(((a :: l).map round2).sum - (a :: l).sum)|
        = |(round2 a - a) + ((l.map round2).sum - l.sum)| := by
          simp only [List.map_cons, List.sum_cons]
          rw [← h3]
          ring_nf
      _ ≤ |round2 a - a| + |(l.map round2).sum - l.sum| := abs_add _ _
      _ ≤ 1 / 200 + (l.length : ℚ) / 200 := add_le_add ha ih
      _ = ((a :: l).length : ℚ) / 200 := by
          simp only [List.length_cons]
          push_cast
          ring

theorem map_ext_fun {α β : Type} (l : List α) (f g : α → β) (hfg : ∀ a, f a = g a) :
    l.map f = l.map g := by
  induction l with
  | nil => rfl
  | cons a l ih => simp [hfg, ih]

theorem enum_map_proj {α β : Type} (l : List α) (f : Nat × α → β) (h : α → β)
    (hf : ∀ p : Nat × α, f p = h p.2) :
    l.enum.map f = l.map h := by
  have h1 : l.enum.map f = l.enum.map (h ∘ Prod.snd) :=
    map_ext_fun _ _ _ (fun p => hf p)
  rw [h1, ← List.map_map, List.enum_map_snd]

theorem sum_map_div_mul (l : List ℚ) (t : ℚ) :
    (l.map (fun x => x / t * 100)).sum = l.sum / t * 100 := by
  induction l with
  | nil => simp
  | cons a l ih =>
    simp only [List.map_cons, List.sum_cons, ih]
    ring

/-- Claim C4: for a non-empty sequence collection the composition list is
ordered by descending count, each entry's percentage is its count over the
total times 100 rounded to two decimals, the percentages sum to 100 up to
a rounding error of at most half a unit of the last decimal per entry, and
a lineage shorter than the rank's positional index contributes the label
"Unknown". -/
theorem composition_props (seqs : List SeqRec) (rank : String) (s : SeqRec)
    (e : CompEntry) (hne : seqs ≠ []) (he : e ∈ compositionOf seqs rank)
    (hshort : (parseLineage (rawTax s)).length < compIdx rank) :
    ((compositionOf seqs rank).map CompEntry.value).Pairwise (fun a b => b ≤ a) ∧
    e.percentage = round2 ((e.value : ℚ) / (seqs.length : ℚ) * 100) ∧
    |((compositionOf seqs rank).map CompEntry.percentage).sum - 100| ≤
      ((compositionOf seqs rank).length : ℚ) / 200 ∧
    taxonAt (compIdx rank) (rawTax s) = "Unknown" := by
  have htot : ((rankCounts seqs rank).map (fun p => p.2)).sum = seqs.length := by
    rw [rankCounts, tally_sum, List.length_map]
  have hperm : List.Perm (mostCommon (rankCounts seqs rank)) (rankCounts seqs rank) :=
    List.perm_insertionSort cntGe _
  have hmapv :
      (compositionOf seqs rank).map CompEntry.value =
        (mostCommon (rankCounts seqs rank)).map (fun q : String × Nat => q.2) := by
    simp only [compositionOf, List.map_map]
    exact enum_map_proj _ _ _ (fun p => rfl)
  have hmapp :
      (compositionOf seqs rank).map CompEntry.percentage =
        (mostCommon (rankCounts seqs rank)).map
          (fun q : String × Nat =>
            round2 ((q.2 : ℚ) /
              ((((rankCounts seqs rank).map (fun p => p.2)).sum : Nat) : ℚ) * 100)) := by
    simp only [compositionOf, List.map_map]
    exact enum_map_proj _ _ _ (fun p => rfl)
  rw [htot] at hmapp
  refine ⟨?_, ?_, ?_, ?_⟩
  · rw [hmapv]
    have hsorted : List.Pairwise cntGe (mostCommon (rankCounts seqs rank)) :=
      List.sorted_insertionSort cntGe _
    exact List.Pairwise.map (fun q : String × Nat => q.2) (fun a b hab => hab) hsorted
  · simp only [compositionOf, List.mem_map] at he
    rcases he with ⟨p, _, rfl⟩
    simp only [htot]
  · have hsplit : (mostCommon (rankCounts seqs rank)).map
        (fun q : String × Nat => round2 ((q.2 : ℚ) / (seqs.length : ℚ) * 100)) =
        ((mostCommon (rankCounts seqs rank)).map
          (fun q : String × Nat => ((q.2 : ℚ) / (seqs.length : ℚ) * 100))).map round2 := by
      rw [List.map_map]
      rfl
    rw [hmapp, hsplit]
    have herr := sum_map_round2_err
      ((mostCommon (rankCounts seqs rank)).map
        (fun q : String × Nat => ((q.2 : ℚ) / (seqs.length : ℚ) * 100)))
    have hlen1 : ((mostCommon (rankCounts seqs rank)).map
        (fun q : String × Nat => ((q.2 : ℚ) / (seqs.length : ℚ) * 100))).length =
        (compositionOf seqs rank).length := by
      simp [compositionOf]
    have hl : (seqs.length : ℚ) ≠ 0 := by
      have h0 : seqs.length ≠ 0 := by
        intro h0
        exact hne (List.length_eq_zero.1 h0)
      exact_mod_cast h0
    have hsum : ((mostCommon (rankCounts seqs rank)).map
        (fun q : String × Nat => ((q.2 : ℚ) / (seqs.length : ℚ) * 100))).sum = 100 := by
      have hgs : (mostCommon (rankCounts seqs rank)).map
          (fun q : String × Nat => ((q.2 : ℚ) / (seqs.length : ℚ) * 100)) =
          ((mostCommon (rankCounts seqs rank)).map
            (fun q : String × Nat => ((q.2 : Nat) : ℚ))).map
            (fun x => x / (seqs.length : ℚ) * 100) := by
        rw [List.map_map]
        rfl
      have hc : ((mostCommon (rankCounts seqs rank)).map
          (fun q : String × Nat => ((q.2 : Nat) : ℚ))).sum =
          ((((mostCommon (rankCounts seqs rank)).map (fun q => q.2)).sum : Nat) : ℚ) := by
        rw [Nat.cast_list_sum, List.map_map]
        rfl
      have hps : ((mostCommon (rankCounts seqs rank)).map (fun q => q.2)).sum =
          seqs.length := by
        rw [(hperm.map (fun q => q.2)).sum_eq, htot]
      rw [hgs, sum_map_div_mul, hc, hps]
      field_simp
    rw [hsum] at herr
    rw [hlen1] at herr
    exact herr
  · exact List.getD_eq_default _ _ (le_of_lt hshort)

theorem headD_mem {α : Type} (l : List α) (d : α) (h : l ≠ []) : l.headD d ∈ l := by
  cases l with
  | nil => exact absurd rfl h
  | cons a l => simp [List.headD]

/-- Concrete input for the composition witness: two lineages reaching the
class level and one too short for it. -/
def compWitnessSeqs : List SeqRec :=
  [⟨some "A;B;C"⟩, ⟨some "A;B;D"⟩, ⟨some "E"⟩]

theorem composition_props_witness :
    ((compositionOf compWitnessSeqs "class").map CompEntry.value).Pairwise
      (fun a b => b ≤ a) ∧
    ((compositionOf compWitnessSeqs "class").headD ⟨"", 0, 0, ""⟩).percentage =
      round2 (((((compositionOf compWitnessSeqs "class").headD ⟨"", 0, 0, ""⟩).value : ℚ)) /
        ((compWitnessSeqs.length : ℚ)) * 100) ∧
    |((compositionOf compWitnessSeqs "class").map CompEntry.percentage).sum - 100| ≤
      (((compositionOf compWitnessSeqs "class").length : ℚ)) / 200 ∧
    taxonAt (compIdx "class") (rawTax ⟨some "E"⟩) = "Unknown" := by
  have hlen : (compositionOf compWitnessSeqs "class").length = 3 := rfl
  have hnil : compositionOf compWitnessSeqs "class" ≠ [] := by
    intro h
    rw [h] at hlen
    exact absurd hlen (by decide)
  exact composition_props compWitnessSeqs "class" ⟨some "E"⟩
    ((compositionOf compWitnessSeqs "class").headD ⟨"", 0, 0, ""⟩)
    (by decide) (headD_mem _ _ hnil) (by decide)

theorem absDiff_comm (a b : Nat) : absDiff a b = absDiff b a := by
  simp only [absDiff]
  omega

theorem zipWith_absDiff_comm (u v : List Nat) :
    List.zipWith absDiff u v = List.zipWith absDiff v u := by
  induction u generalizing v with
  | nil => cases v <;> rfl
  | cons a u ih =>
    cases v with
    | nil => rfl
    | cons b v => simp [absDiff_comm a b, ih]

theorem zipWith_add_comm_lists (u v : List Nat) :
    List.zipWith (fun a b => a + b) u v = List.zipWith (fun a b => a + b) v u := by
  induction u generalizing v with
  | nil => cases v <;> rfl
  | cons a u ih =>
    cases v with
    | nil => rfl
    | cons b v => simp [Nat.add_comm a b, ih]

theorem sum_zipWith_absDiff_le (u v : List Nat) :
    (List.zipWith absDiff u v).sum ≤ (List.zipWith (fun a b => a + b) u v).sum := by
  induction u generalizing v with
  | nil => cases v <;> simp
  | cons a u ih =>
    cases v with
    | nil => simp
    | cons b v =>
      simp only [List.zipWith_cons_cons, List.sum_cons]
      have h1 : absDiff a b ≤ a + b := by
        simp only [absDiff]
        omega
      have h2 := ih v
      omega

theorem brayCurtis_comm (u v : List Nat) : brayCurtis u v = brayCurtis v u := by
  simp only [brayCurtis, zipWith_absDiff_comm u v, zipWith_add_comm_lists u v]

theorem brayCurtis_bounds (u v : List Nat) (q : ℚ) (h : brayCurtis u v = some q) :
    0 ≤ q ∧ q ≤ 1 := by
  simp only [brayCurtis] at h
  by_cases hden : (List.zipWith (fun a b => a + b) u v).sum = 0
  · simp [hden] at h
  · rw [if_neg hden] at h
    have hq : q = Rat.divInt (Nat.cast (List.zipWith absDiff u v).sum)
        (Nat.cast (List.zipWith (fun a b => a + b) u v).sum) := by
      exact (Option.some_inj.1 h).symm
    have hle := sum_zipWith_absDiff_le u v
    rw [hq, Rat.divInt_eq_div]
    have hdenpos : (0 : ℚ) < ((Nat.cast (List.zipWith (fun a b => a + b) u v).sum : ℤ) : ℚ) := by
      have : 0 < (List.zipWith (fun a b => a + b) u v).sum := Nat.pos_of_ne_zero hden
      exact_mod_cast this
    constructor
    · apply div_nonneg _ (le_of_lt hdenpos)
      have h0 : (0 : ℤ) ≤ (Nat.cast (List.zipWith absDiff u v).sum : ℤ) := Int.ofNat_nonneg _
      exact_mod_cast h0
    · rw [div_le_one hdenpos]
      exact_mod_cast hle

/-- Claim C6 (amended): the dissimilarity matrix has zero diagonal and is
symmetric; every *defined* entry lies in [0, 1]; the similarity matrix is
the elementwise `1 - dissimilarity` (NaN entries, modelled as `none`, stay
NaN); an off-diagonal entry is undefined (scipy's 0/0 NaN) exactly when
the two samples' abundance vectors have zero total, so entries are not in
[0, 1] for every input. -/
theorem diversity_matrix_props (store : Store) (jobIds : List String) (i j : Nat) (q : ℚ)
    (hq : dissimEntry store jobIds i j = some q) :
    dissimEntry store jobIds i i = some 0 ∧
    dissimEntry store jobIds i j = dissimEntry store jobIds j i ∧
    (0 ≤ q ∧ q ≤ 1) ∧
    (calculateBetaDiversity store jobIds).similarity =
      (calculateBetaDiversity store jobIds).dissimilarity.map
        (fun row => row.map (Option.map (fun d => 1 - d))) := by
  refine ⟨by simp [dissimEntry], ?_, ?_, ?_⟩
  · by_cases hij : i = j
    · subst hij
      rfl
    · have hji : ¬ j = i := fun h => hij h.symm
      simp only [dissimEntry, if_neg hij, if_neg hji]
      exact brayCurtis_comm _ _
  · by_cases hij : i = j
    · subst hij
      have h00 : dissimEntry store jobIds i i = some 0 := by simp [dissimEntry]
      rw [h00] at hq
      have hq0 : (0 : ℚ) = q := Option.some_inj.1 hq
      rw [← hq0]
      norm_num
    · simp only [dissimEntry, if_neg hij] at hq
      exact brayCurtis_bounds _ _ q hq
  · simp only [calculateBetaDiversity, List.map_map]
    apply map_ext_fun
    intro a
    show (List.range (nSamples store jobIds)).map (fun j => similEntry store jobIds a j) =
      ((List.range (nSamples store jobIds)).map
        (fun j => dissimEntry store jobIds a j)).map (Option.map (fun d => 1 - d))
    rw [List.map_map]
    apply map_ext_fun
    intro b
    rfl

theorem diversity_matrix_props_witness :
    dissimEntry
      (fun id => if id = "a" then some ⟨some "a.fasta", [⟨some "X"⟩, ⟨some "X"⟩, ⟨some "Y"⟩]⟩
        else if id = "b" then some ⟨some "b.fasta", [⟨some "X"⟩]⟩ else none)
      ["a", "b"] 0 0 = some 0 ∧
    dissimEntry
      (fun id => if id = "a" then some ⟨some "a.fasta", [⟨some "X"⟩, ⟨some "X"⟩, ⟨some "Y"⟩]⟩
        else if id = "b" then some ⟨some "b.fasta", [⟨some "X"⟩]⟩ else none)
      ["a", "b"] 0 1 =
      dissimEntry
        (fun id => if id = "a" then some ⟨some "a.fasta", [⟨some "X"⟩, ⟨some "X"⟩, ⟨some "Y"⟩]⟩
          else if id = "b" then some ⟨some "b.fasta", [⟨some "X"⟩]⟩ else none)
        ["a", "b"] 1 0 ∧
    (0 ≤ Rat.divInt 2 4 ∧ Rat.divInt 2 4 ≤ 1) ∧
    (calculateBetaDiversity
      (fun id => if id = "a" then some ⟨some "a.fasta", [⟨some "X"⟩, ⟨some "X"⟩, ⟨some "Y"⟩]⟩
        else if id = "b" then some ⟨some "b.fasta", [⟨some "X"⟩]⟩ else none)
      ["a", "b"]).similarity =
      (calculateBetaDiversity
        (fun id => if id = "a" then some ⟨some "a.fasta", [⟨some "X"⟩, ⟨some "X"⟩, ⟨some "Y"⟩]⟩
          else if id = "b" then some ⟨some "b.fasta", [⟨some "X"⟩]⟩ else none)
        ["a", "b"]).dissimilarity.map
        (fun row => row.map (Option.map (fun d => 1 - d))) :=
  diversity_matrix_props
    (fun id => if id = "a" then some ⟨some "a.fasta", [⟨some "X"⟩, ⟨some "X"⟩, ⟨some "Y"⟩]⟩
      else if id = "b" then some ⟨some "b.fasta", [⟨some "X"⟩]⟩ else none)
    ["a", "b"] 0 1 (Rat.divInt 2 4) (by decide)

/-- Claim C6 (counterexample): with two stored jobs that both have zero
sequences, both abundance vectors are all-zero and the off-diagonal
dissimilarity entry is scipy's 0/0 NaN (modelled `none`): it is not a
rational in [0, 1], although both samples are within the matrix bounds. -/
theorem diversity_matrix_props_cex :
    dissimEntry
      (fun id => if id = "j1" ∨ id = "j2" then some ⟨some "f.fasta", []⟩ else none)
      ["j1", "j2"] 0 1 = none ∧
    nSamples
      (fun id => if id = "j1" ∨ id = "j2" then some ⟨some "f.fasta", []⟩ else none)
      ["j1", "j2"] = 2 :=
  ⟨by decide, by decide⟩

/-- Claim C9 (evaluation at a failing input): the source has no guard for
degenerate inputs.  With three resolved samples of which two have zero
sequences, the all-zero pair's Bray-Curtis denominator is zero and the
dissimilarity and similarity entries are NaN (modelled `none`): the
non-numeric value propagates to the caller inside the returned matrices
instead of a descriptive error being raised.  (For fewer than two
resolvable samples the failure instead comes from the unmodelled external
`sklearn` PCA call, which raises its own ValueError.) -/
theorem diversity_degenerate_nan :
    dissimEntry
      (fun id => if id = "a" then some ⟨some "a.fasta", [⟨some "X"⟩]⟩
        else if id = "b" ∨ id = "c" then some ⟨some "empty.fasta", []⟩ else none)
      ["a", "b", "c"] 1 2 = none ∧
    similEntry
      (fun id => if id = "a" then some ⟨some "a.fasta", [⟨some "X"⟩]⟩
        else if id = "b" ∨ id = "c" then some ⟨some "empty.fasta", []⟩ else none)
      ["a", "b", "c"] 1 2 = none ∧
    nSamples
      (fun id => if id = "a" then some ⟨some "a.fasta", [⟨some "X"⟩]⟩
        else if id = "b" ∨ id = "c" then some ⟨some "empty.fasta", []⟩ else none)
      ["a", "b", "c"] = 3 :=
  ⟨by decide, by decide, by decide⟩

end Taxaformer
